import Mathlib

/-!
Verification of the noodles repository's core subsystems against its
natural-language specification: the CSI binning index (bin builder and
linear index), the BAM record codec (bin arithmetic, record encoder,
auxiliary-data decoder), and the CRAM record feature resolver.

Rust machine integers are modelled as `Nat`/`Int` with explicit wrapping
where the source can overflow; fallible or panicking code returns
`Option`.
-/

namespace Noodles

/-! ## Virtual positions and chunks (noodles-csi, noodles-bgzf)

A BGZF virtual position is an opaque `u64`; `VirtualPosition::MAX` is the
sentinel `u64::MAX` and `VirtualPosition::default()` is `0`.  We model a
virtual position as a `Nat` (all values produced by the code are below
`2 ^ 64`).
-/

/-- Sentinel `bgzf::VirtualPosition::MAX`, i.e. `u64::MAX`. -/
def vpMax : Nat := 2 ^ 64 - 1

/-- A chunk `[start, end)` of virtual positions
(`noodles-csi/src/index/reference_sequence/bin/chunk.rs`). -/
structure Chunk where
  start : Nat
  stop : Nat
deriving DecidableEq

/-- A CSI reference-sequence bin: `(id, loffset, chunks)`. -/
structure Bin where
  id : Nat
  loffset : Nat
  chunks : List Chunk
deriving DecidableEq

/-- A CSI bin builder
(`noodles-csi/src/index/reference_sequence/bin/builder.rs`). -/
structure Builder where
  id : Nat
  loffset : Nat
  chunks : List Chunk
deriving DecidableEq

/-- Embedding of `Builder::default()`: id 0, loffset `VirtualPosition::MAX`,
no chunks. -/
def Builder.default : Builder :=
  { id := 0, loffset := vpMax, chunks := [] }

/-- Embedding of `Builder::add_chunk`: first lower `loffset` to
`chunk.start()` when smaller; then, if the last chunk exists and
`chunk.start() <= last_chunk.end()`, replace the last chunk by
`Chunk::new(last_chunk.start(), chunk.end())`; otherwise push `chunk`. -/
def Builder.addChunk (b : Builder) (chunk : Chunk) : Builder :=
  let b := if chunk.start < b.loffset then { b with loffset := chunk.start } else b
  match b.chunks.getLast? with
  | some lastChunk =>
      if chunk.start ≤ lastChunk.stop then
        { b with chunks := b.chunks.dropLast ++ [⟨lastChunk.start, chunk.stop⟩] }
      else
        { b with chunks := b.chunks ++ [chunk] }
  | none => { b with chunks := b.chunks ++ [chunk] }

/-- Embedding of `Builder::build`. -/
def Builder.build (b : Builder) : Bin :=
  { id := b.id, loffset := b.loffset, chunks := b.chunks }

/-! ## Linear index (noodles-csi) -/

/-- Linear-index window size, `1 << 14`. -/
def windowSize : Nat := 1 <<< 14

/-- Embedding of the `for i in start_offset..=end_offset` loop body of
`LinearIndex::update`: starting at window `i`, for `n` windows, set the
entry to `cstart` when it currently holds the default virtual position. -/
def updateWindows (ix : List Nat) (i n cstart : Nat) : List Nat :=
  match n with
  | 0 => ix
  | n + 1 =>
      updateWindows (if ix[i]? = some 0 then ix.set i cstart else ix) (i + 1) n cstart

/-- Embedding of `LinearIndex::update`
(`noodles-csi/src/index/reference_sequence/index/linear_index.rs`): compute
the window range from the 1-based interval, resize with default entries
when too short, then set untouched windows to `chunk.start()`. -/
def linearIndexUpdate (ix : List Nat) (start stop : Nat) (chunk : Chunk) : List Nat :=
  updateWindows
    (if ix.length ≤ (stop - 1) / windowSize then
        ix ++ List.replicate ((stop - 1) / windowSize + 1 - ix.length) 0
      else ix)
    ((start - 1) / windowSize)
    ((stop - 1) / windowSize + 1 - (start - 1) / windowSize)
    chunk.start

/-! ## BAM bin arithmetic (noodles-bam/src/record/codec/encoder.rs) -/

/-- Constant `UNMAPPED_BIN`, the documented `reg2bin(-1, 0)` result. -/
def unmappedBin : Nat := 4680

/-- Embedding of `region_to_bin`: both positions are 1-based; the result is
`None` exactly when `u16::try_from(bin)` fails, i.e. when the computed bin
does not fit in 16 bits. -/
def regionToBin (alignmentStart alignmentEnd : Nat) : Option Nat :=
  let start := alignmentStart - 1
  let stop := alignmentEnd - 1
  let bin :=
    if start >>> 14 = stop >>> 14 then ((1 <<< 15) - 1) / 7 + (start >>> 14)
    else if start >>> 17 = stop >>> 17 then ((1 <<< 12) - 1) / 7 + (start >>> 17)
    else if start >>> 20 = stop >>> 20 then ((1 <<< 9) - 1) / 7 + (start >>> 20)
    else if start >>> 23 = stop >>> 23 then ((1 <<< 6) - 1) / 7 + (start >>> 23)
    else if start >>> 26 = stop >>> 26 then ((1 <<< 3) - 1) / 7 + (start >>> 26)
    else 0
  if bin < 2 ^ 16 then some bin else none

/-- Embedding of `put_bin`'s bin value: the 6-level bin of (start, end) when
both are present, else the constant `UNMAPPED_BIN`. -/
def putBinValue (alignmentStart alignmentEnd : Option Nat) : Option Nat :=
  match alignmentStart, alignmentEnd with
  | some start, some stop => regionToBin start stop
  | _, _ => some unmappedBin

/-- Formalization of the claim's binning formula over 0-based coordinates:
walk levels `L = 0, 1, 2, 3, 4` (shifts `14 + 3 L`), and at the first level
at which the shifted values agree return
`((1 <<< (15 - 3 L)) - 1) / 7 + (start >>> (14 + 3 L))`, else `0`. -/
def binFormulaLevels : List Nat → Nat → Nat → Nat
  | [], _, _ => 0
  | l :: ls, start, stop =>
      if start >>> (14 + 3 * l) = stop >>> (14 + 3 * l) then
        ((1 <<< (15 - 3 * l)) - 1) / 7 + (start >>> (14 + 3 * l))
      else binFormulaLevels ls start stop

/-- The claim's 6-level binning formula on a 0-based pair. -/
def binFormula (start stop : Nat) : Nat :=
  binFormulaLevels [0, 1, 2, 3, 4] start stop

/-! ## CIGAR operations (noodles-sam)

Both the BAM encoder and the CRAM resolver use
`noodles_sam::record::cigar::op::{Kind, Op}`.
-/

/-- CIGAR operation kinds `M I D N S H P = X`. -/
inductive OpKind
  | Match
  | Insertion
  | Deletion
  | Skip
  | SoftClip
  | HardClip
  | Pad
  | SequenceMatch
  | SequenceMismatch
deriving DecidableEq

/-- BAM wire op codes: `M=0, I=1, D=2, N=3, S=4, H=5, P=6, ==7, X=8`. -/
def opCode : OpKind → Nat
  | .Match => 0
  | .Insertion => 1
  | .Deletion => 2
  | .Skip => 3
  | .SoftClip => 4
  | .HardClip => 5
  | .Pad => 6
  | .SequenceMatch => 7
  | .SequenceMismatch => 8

/-- A CIGAR operation `(kind, length)`. -/
structure CigarOp where
  kind : OpKind
  len : Nat
deriving DecidableEq

/-- Two's-complement reinterpretation of an `i32` value as a `u32`, as in
Rust's `len as u32`. -/
def u32cast (x : Int) : Nat := (x % (2 : Int) ^ 32).toNat

/-- Two's-complement reinterpretation of a `usize` value as an `i32`, as in
Rust's `bases.len() as i32`. -/
def i32ofNat (n : Nat) : Int :=
  if n % 2 ^ 32 < 2 ^ 31 then ((n % 2 ^ 32 : Nat) : Int)
  else ((n % 2 ^ 32 : Nat) : Int) - 2 ^ 32

/-- Two's-complement reinterpretation of an `i32` value as a `usize`, as in
Rust's `pos as usize` on a 64-bit target. -/
def usizeCast (x : Int) : Nat := (x % (2 : Int) ^ 64).toNat

/-! ## CRAM features (noodles-cram/src/record) -/

/-- Modelled from the spec: the CRAM `Feature` enumeration
(`Substitution(pos, code)`, `Insertion(pos, bases)`, `Deletion(pos, len)`,
`InsertBase(pos, base)`, `SoftClip(pos, bases)`, `HardClip(pos, len)`,
`ReferenceSkip(pos, len)`, `Padding(pos, len)`); its Rust definition is not
part of the provided sources.  Positions and lengths are `i32`. -/
inductive Feature
  | substitution (pos : Int) (code : Nat)
  | insertion (pos : Int) (bases : List Nat)
  | deletion (pos len : Int)
  | insertBase (pos : Int) (base : Nat)
  | referenceSkip (pos len : Int)
  | softClip (pos : Int) (bases : List Nat)
  | padding (pos len : Int)
  | hardClip (pos len : Int)
deriving DecidableEq

/-- The 1-based in-read position carried by every feature. -/
def Feature.position : Feature → Int
  | .substitution pos _ => pos
  | .insertion pos _ => pos
  | .deletion pos _ => pos
  | .insertBase pos _ => pos
  | .referenceSkip pos _ => pos
  | .softClip pos _ => pos
  | .padding pos _ => pos
  | .hardClip pos _ => pos

/-! ## CRAM CIGAR resolution (noodles-cram/src/record/resolve.rs) -/

/-- Embedding of the feature loop of `resolve_features`: walk the features
with the 1-based read cursor `i`, emitting a gap `M` op before a feature
whose position exceeds `i`, then the feature's own op, advancing `i` by the
emitted length.  Returns the accumulated ops and the final cursor. -/
def resolveFeaturesGo : List Feature → Int → List CigarOp → List CigarOp × Int
  | [], i, ops => (ops, i)
  | f :: fs, i, ops =>
      let gap : Int × List CigarOp :=
        if f.position > i then (f.position, ops ++ [⟨.Match, u32cast (f.position - i)⟩])
        else (i, ops)
      let i := gap.1
      let ops := gap.2
      let kindLen : OpKind × Int :=
        match f with
        | .substitution _ _ => (.Match, 1)
        | .insertion _ bases => (.Insertion, i32ofNat bases.length)
        | .deletion _ len => (.Deletion, len)
        | .insertBase _ _ => (.Insertion, 1)
        | .referenceSkip _ len => (.Skip, len)
        | .softClip _ bases => (.SoftClip, i32ofNat bases.length)
        | .padding _ len => (.Pad, len)
        | .hardClip _ len => (.HardClip, len)
      resolveFeaturesGo fs (i + kindLen.2) (ops ++ [⟨kindLen.1, u32cast kindLen.2⟩])

/-- Embedding of `resolve_features`: run the feature loop from cursor `1`,
then, when the final cursor `i` is strictly below `read_len`, append one
final `M` op of length `read_len - i + 1`. -/
def resolveFeatures (features : List Feature) (readLen : Int) : List CigarOp :=
  match resolveFeaturesGo features 1 [] with
  | (ops, i) =>
      if i < readLen then ops ++ [⟨.Match, u32cast (readLen - i + 1)⟩] else ops

/-! ## CRAM base resolution (noodles-cram/src/record/resolve.rs) -/

/-- Modelled from the spec: the substitution-matrix base alphabet
`{A, C, G, T, N}` with `N` as the default; its Rust definition
(`substitution_matrix::Base`) is not part of the provided sources. -/
inductive Base
  | baseA
  | baseC
  | baseG
  | baseT
  | baseN
deriving DecidableEq

/-- Modelled from the spec: `Base::try_from(char).unwrap_or_default()`,
coercing any byte outside `{A, C, G, T, N}` to `N`. -/
def baseFromChar (c : Nat) : Base :=
  if c = 65 then .baseA
  else if c = 67 then .baseC
  else if c = 71 then .baseG
  else if c = 84 then .baseT
  else .baseN

/-- Modelled from the spec: `char::from(base) as u8`. -/
def baseChar : Base → Nat
  | .baseA => 65
  | .baseC => 67
  | .baseG => 71
  | .baseT => 84
  | .baseN => 78

/-- The write `buf[i] = v`; `None` models the out-of-bounds panic. -/
def setAt (buf : List Nat) (i v : Nat) : Option (List Nat) :=
  if i < buf.length then some (buf.set i v) else none

/-- Embedding of the reference-copy loops of `resolve_bases`
(`while read_pos < feature_pos - 1 { buf[read_pos] = reference[ref_pos]; .. }`
and the trailing fill): copy `n` reference bytes starting at `ref_pos` into
`buf` starting at `read_pos`; `None` models an index panic. -/
def copyRefRange (refSeq : List Nat) : Nat → List Nat → Nat → Nat → Option (List Nat × Nat × Nat)
  | 0, buf, refPos, readPos => some (buf, refPos, readPos)
  | n + 1, buf, refPos, readPos => do
      let b ← refSeq[refPos]?
      let buf ← setAt buf readPos b
      copyRefRange refSeq n buf (refPos + 1) (readPos + 1)

/-- Embedding of one iteration of the feature loop of `resolve_bases` over
the state `(buf, ref_pos, read_pos)`.  The `ReferenceSkip` and `Padding`
variants fall into the source's `_ => todo!(..)` arm, which panics; this is
modelled as `None`. -/
def applyFeature (refSeq : List Nat) (subMat : Base → Nat → Base)
    (st : List Nat × Nat × Nat) (f : Feature) : Option (List Nat × Nat × Nat) := do
  let (buf, refPos, readPos) := st
  let featurePos := usizeCast f.position
  let (buf, refPos, readPos) ← copyRefRange refSeq (featurePos - 1 - readPos) buf refPos readPos
  match f with
  | .substitution _ code => do
      let b ← refSeq[refPos]?
      let readBase := subMat (baseFromChar b) code
      let buf ← setAt buf readPos (baseChar readBase)
      some (buf, refPos + 1, readPos + 1)
  | .insertion _ bases => do
      let r ← writeBases buf readPos bases
      some (r.1, refPos, r.2)
  | .deletion _ len => some (buf, refPos + usizeCast len, readPos)
  | .insertBase _ base => do
      let buf ← setAt buf readPos base
      some (buf, refPos, readPos + 1)
  | .softClip _ bases => do
      let r ← writeBases buf readPos bases
      some (r.1, refPos, r.2)
  | .hardClip _ _ => some (buf, refPos, readPos)
  | .referenceSkip _ _ => none
  | .padding _ _ => none
where
  /-- The `for &base in bases { buf[read_pos] = base; read_pos += 1 }` loop
  of the `Insertion` and `SoftClip` arms. -/
  writeBases : List Nat → Nat → List Nat → Option (List Nat × Nat)
    | buf, readPos, [] => some (buf, readPos)
    | buf, readPos, b :: bs => do
        let buf ← setAt buf readPos b
        writeBases buf (readPos + 1) bs

/-- Embedding of `resolve_bases`: start from a buffer of `read_len` copies
of `b'-'`, with `ref_pos = alignment_start - 1` and `read_pos = 0`, fold
the features, then fill the rest of the buffer from the reference. -/
def resolveBases (refSeq : List Nat) (subMat : Base → Nat → Base) (features : List Feature)
    (alignmentStart : Int) (readLen : Nat) : Option (List Nat) := do
  let buf : List Nat := List.replicate readLen 45
  let st ← features.foldlM (applyFeature refSeq subMat) (buf, usizeCast (alignmentStart - 1), 0)
  let (buf, refPos, readPos) := st
  let r ← copyRefRange refSeq (buf.length - readPos) buf refPos readPos
  some r.1

/-! ## Auxiliary data fields (noodles-bam/src/record/codec/decoder/data.rs)

The field-level decoder `get_field` lives in a module that is not part of
the provided sources; it is modelled from the spec's field layout
`[tag:2][type:1][value]` and type table.  `get_data` itself is embedded
from the source.
-/

/-- A 2-byte auxiliary field tag. -/
abbrev Tag := Nat × Nat

/-- Array-value subtypes of the `B` type. -/
inductive SubType
  | i8
  | u8
  | i16
  | u16
  | i32
  | u32
  | f32
deriving DecidableEq

/-- Modelled from the spec: an auxiliary field value, one variant per type
code in the spec's table. -/
inductive Value
  | charV (c : Nat)
  | int8 (x : Int)
  | uint8 (x : Nat)
  | int16 (x : Int)
  | uint16 (x : Nat)
  | int32 (x : Int)
  | uint32 (x : Nat)
  | float32 (bits : Nat)
  | stringV (bs : List Nat)
  | hexV (bs : List Nat)
  | arrayV (st : SubType) (xs : List Int)
deriving DecidableEq

/-- Little-endian value of a byte list (first byte least significant). -/
def leValue (bs : List Nat) : Nat :=
  bs.foldr (fun b acc => b + 256 * acc) 0

/-- Signed interpretation of an 8-bit value. -/
def toI8 (v : Nat) : Int := if v % 2 ^ 8 < 2 ^ 7 then (v % 2 ^ 8 : Nat) else (v % 2 ^ 8 : Nat) - 2 ^ 8

/-- Signed interpretation of a 16-bit value. -/
def toI16 (v : Nat) : Int :=
  if v % 2 ^ 16 < 2 ^ 15 then (v % 2 ^ 16 : Nat) else (v % 2 ^ 16 : Nat) - 2 ^ 16

/-- Signed interpretation of a 32-bit value. -/
def toI32 (v : Nat) : Int :=
  if v % 2 ^ 32 < 2 ^ 31 then (v % 2 ^ 32 : Nat) else (v % 2 ^ 32 : Nat) - 2 ^ 32

/-- Read exactly `n` bytes; `None` models a truncated-buffer decode error. -/
def readExact (n : Nat) (src : List Nat) : Option (List Nat × List Nat) :=
  if n ≤ src.length then some (src.take n, src.drop n) else none

/-- Read bytes up to and excluding a NUL terminator; `None` models the
missing-terminator decode error. -/
def takeToNul : List Nat → Option (List Nat × List Nat)
  | [] => none
  | b :: rest =>
      if b = 0 then some ([], rest) else (takeToNul rest).map fun p => (b :: p.1, p.2)

/-- Hex digits `0-9A-Fa-f`. -/
def isHexDigit (b : Nat) : Bool :=
  (48 ≤ b && b ≤ 57) || (65 ≤ b && b ≤ 70) || (97 ≤ b && b ≤ 102)

/-- Byte width of a `B`-array subtype. -/
def elemSize : SubType → Nat
  | .i8 => 1
  | .u8 => 1
  | .i16 => 2
  | .u16 => 2
  | .i32 => 4
  | .u32 => 4
  | .f32 => 4

/-- Decode a `B`-array subtype byte (`c C s S i I f`). -/
def subTypeOfByte (b : Nat) : Option SubType :=
  if b = 99 then some .i8
  else if b = 67 then some .u8
  else if b = 115 then some .i16
  else if b = 83 then some .u16
  else if b = 105 then some .i32
  else if b = 73 then some .u32
  else if b = 102 then some .f32
  else none

/-- Interpretation of one array element (floats kept as raw bits). -/
def interpElem (st : SubType) (bs : List Nat) : Int :=
  match st with
  | .i8 => toI8 (leValue bs)
  | .u8 => (leValue bs : Nat)
  | .i16 => toI16 (leValue bs)
  | .u16 => (leValue bs : Nat)
  | .i32 => toI32 (leValue bs)
  | .u32 => (leValue bs : Nat)
  | .f32 => (leValue bs : Nat)

/-- Read `n` array elements of the given subtype. -/
def readElems (st : SubType) : Nat → List Nat → Option (List Int × List Nat)
  | 0, src => some ([], src)
  | n + 1, src =>
      (readExact (elemSize st) src).bind fun p =>
        (readElems st n p.2).map fun q => (interpElem st p.1 :: q.1, q.2)

/-- Modelled from the spec: decode one field value given its type byte.
`None` models the unknown-type, truncated-buffer, odd-length-hex and
array-count-overflow decode errors. -/
def getValue (ty : Nat) (src : List Nat) : Option (Value × List Nat) :=
  if ty = 65 then
    match src with
    | c :: rest => some (.charV c, rest)
    | [] => none
  else if ty = 99 then (readExact 1 src).map fun p => (.int8 (toI8 (leValue p.1)), p.2)
  else if ty = 67 then (readExact 1 src).map fun p => (.uint8 (leValue p.1), p.2)
  else if ty = 115 then (readExact 2 src).map fun p => (.int16 (toI16 (leValue p.1)), p.2)
  else if ty = 83 then (readExact 2 src).map fun p => (.uint16 (leValue p.1), p.2)
  else if ty = 105 then (readExact 4 src).map fun p => (.int32 (toI32 (leValue p.1)), p.2)
  else if ty = 73 then (readExact 4 src).map fun p => (.uint32 (leValue p.1), p.2)
  else if ty = 102 then (readExact 4 src).map fun p => (.float32 (leValue p.1), p.2)
  else if ty = 90 then (takeToNul src).map fun p => (.stringV p.1, p.2)
  else if ty = 72 then
    (takeToNul src).bind fun p =>
      if p.1.length % 2 = 0 ∧ p.1.all isHexDigit then some (.hexV p.1, p.2) else none
  else if ty = 66 then
    match src with
    | stByte :: rest =>
        (subTypeOfByte stByte).bind fun st =>
          (readExact 4 rest).bind fun p =>
            (readElems st (leValue p.1) p.2).map fun q => (.arrayV st q.1, q.2)
    | [] => none
  else none

/-- Modelled from the spec: decode one auxiliary field
`[tag:2][type:1][value]`, returning the field and the remaining bytes. -/
def getField (src : List Nat) : Option ((Tag × Value) × List Nat) :=
  match src with
  | t1 :: t2 :: ty :: rest => (getValue ty rest).map fun p => (((t1, t2), p.1), p.2)
  | _ => none

/-- Modelled from the spec: `Data::insert` over the insertion-ordered
auxiliary map, where a duplicate key is an error, not a replacement — the
existing entry is returned untouched; a new tag is appended, preserving
first-seen order. -/
def dataInsert (d : List (Tag × Value)) (t : Tag) (v : Value) :
    List (Tag × Value) × Option (Tag × Value) :=
  match d.find? (fun p => decide (p.1 = t)) with
  | some p => (d, some p)
  | none => (d ++ [(t, v)], none)

/-- Decode errors of `get_data`. -/
inductive DecodeErr
  | duplicateTag (tag : Tag)
  | invalidField
deriving DecidableEq

/-- Embedding of the `while src.has_remaining()` loop of `get_data`: decode
a field, insert it, fail with `DuplicateTag` when the insert finds an
existing entry.  The fuel argument only bounds the recursion and never runs
out when it starts at `src.length`. -/
def getDataGo : Nat → List Nat → List (Tag × Value) → List (Tag × Value) × Option DecodeErr
  | _, [], d => (d, none)
  | fuel + 1, b :: src, d =>
      match getField (b :: src) with
      | none => (d, some .invalidField)
      | some ((t, v), rest) =>
          match dataInsert d t v with
          | (d', some tv) => (d', some (.duplicateTag tv.1))
          | (d', none) => getDataGo fuel rest d'
  | 0, _ :: _, d => (d, some .invalidField)

/-- Embedding of `get_data`: the destination map is cleared on entry (the
prior contents `d0` are discarded), then the field loop runs. -/
def getData (src : List Nat) (d0 : List (Tag × Value)) :
    List (Tag × Value) × Option DecodeErr :=
  let _ := d0
  getDataGo src.length src []

/-- Decode all fields of a buffer, ignoring duplicate tags; used to state
which fields a buffer contains. -/
def decodeFieldsGo : Nat → List Nat → Option (List (Tag × Value))
  | _, [] => some []
  | fuel + 1, b :: src =>
      match getField (b :: src) with
      | none => none
      | some (f, rest) => (decodeFieldsGo fuel rest).map fun fs => f :: fs
  | 0, _ :: _ => none

/-- The full field list of a buffer, when every field decodes. -/
def decodeFields (src : List Nat) : Option (List (Tag × Value)) :=
  decodeFieldsGo src.length src

/-- Consume the given fields off the front of a buffer, returning the
remaining bytes. -/
def consumeFields : List Nat → List (Tag × Value) → Option (List Nat)
  | src, [] => some src
  | src, f :: fs =>
      match getField src with
      | some (f', rest) => if f' = f then consumeFields rest fs else none
      | none => none

/-- The first tag that repeats an earlier tag, scanning left to right. -/
def firstDupTag (seen : List Tag) : List Tag → Option Tag
  | [] => none
  | t :: ts => if t ∈ seen then some t else firstDupTag (seen ++ [t]) ts

/-! ## BAM record encoder (noodles-bam/src/record/codec/encoder.rs)

`encode` itself is embedded from the source; the byte-level helpers it
calls (`put_reference_sequence_id`, `put_position`, `put_name`,
`put_cigar`, `put_sequence`, `put_quality_scores`, `put_data`,
`data::field::put_cigar`) live in modules that are not part of the
provided sources and are modelled from the spec's wire layout (§4.2,
§4.4). -/

/-- Little-endian bytes of a `u16` value. -/
def u16le (n : Nat) : List Nat := [n % 2 ^ 8, n / 2 ^ 8 % 2 ^ 8]

/-- Little-endian bytes of a `u32` value. -/
def u32le (n : Nat) : List Nat :=
  [n % 2 ^ 8, n / 2 ^ 8 % 2 ^ 8, n / 2 ^ 16 % 2 ^ 8, n / 2 ^ 24 % 2 ^ 8]

/-- Two's-complement reinterpretation of an `i32` value as a `u8`. -/
def u8cast (x : Int) : Nat := (x % (2 : Int) ^ 8).toNat

/-- Two's-complement reinterpretation of an `i32` value as a `u16`. -/
def u16cast (x : Int) : Nat := (x % (2 : Int) ^ 16).toNat

/-- Little-endian bytes of an `i32` value, two's complement. -/
def i32le (x : Int) : List Nat := u32le (u32cast x)

/-- An in-memory alignment record (`sam::alignment::RecordBuf`), restricted
to the fields the encoder reads. -/
structure RecordBuf where
  name : Option (List Nat)
  flags : Nat
  referenceSequenceId : Option Nat
  alignmentStart : Option Nat
  mappingQuality : Option Nat
  cigar : List CigarOp
  mateReferenceSequenceId : Option Nat
  mateAlignmentStart : Option Nat
  templateLength : Int
  sequence : List Nat
  qualityScores : List Nat
  data : List (Tag × Value)
deriving DecidableEq

/-- Op kinds that consume the read (`M I S = X`). -/
def consumesRead : OpKind → Bool
  | .Match | .Insertion | .SoftClip | .SequenceMatch | .SequenceMismatch => true
  | _ => false

/-- Op kinds that consume the reference (`M D N = X`). -/
def consumesReference : OpKind → Bool
  | .Match | .Deletion | .Skip | .SequenceMatch | .SequenceMismatch => true
  | _ => false

/-- Modelled from the spec: `Cigar::read_length`, the sum of consumed-read
lengths across the CIGAR. -/
def cigarReadLength (ops : List CigarOp) : Nat :=
  ops.foldl (fun acc op => if consumesRead op.kind then acc + op.len else acc) 0

/-- Modelled from the spec: `Cigar::alignment_span`, the sum of
consumed-reference lengths across the CIGAR. -/
def cigarAlignmentSpan (ops : List CigarOp) : Nat :=
  ops.foldl (fun acc op => if consumesReference op.kind then acc + op.len else acc) 0

/-- Modelled from the spec: `Record::alignment_end`, i.e.
`alignment_start + alignment_span - 1`. -/
def alignmentEnd (r : RecordBuf) : Option Nat :=
  r.alignmentStart.map fun start => start + cigarAlignmentSpan r.cigar - 1

/-- Modelled from the spec: `put_reference_sequence_id` writes `-1` for an
unassigned id and otherwise validates the id against the header's
reference-sequence list (here the list of reference lengths). -/
def putReferenceSequenceId (header : List Nat) (id? : Option Nat) : Option (List Nat) :=
  match id? with
  | none => some (i32le (-1))
  | some id => if id < header.length then some (i32le id) else none

/-- Modelled from the spec: `put_position` writes the 0-based position (or
`-1` when absent) as an `i32`; positions beyond `i32::MAX` are an error. -/
def putPosition (pos? : Option Nat) : Option (List Nat) :=
  match pos? with
  | none => some (i32le (-1))
  | some pos =>
      if (pos : Int) - 1 ≤ 2 ^ 31 - 1 then some (i32le ((pos : Int) - 1)) else none

/-- Embedding of `put_l_read_name`: the name length (1 for the missing name
`*`) plus the NUL terminator must fit in a `u8`. -/
def putLReadName (name? : Option (List Nat)) : Option (List Nat) :=
  let nameLen := (match name? with | some n => n.length | none => 1) + 1
  if nameLen < 2 ^ 8 then some [nameLen] else none

/-- Embedding of `put_mapping_quality`: `255` encodes a missing value. -/
def putMappingQuality (mq? : Option Nat) : List Nat := [mq?.getD 255]

/-- Embedding of `put_bin`: the `u16` bytes of the bin value. -/
def putBinBytes (start stop : Option Nat) : Option (List Nat) :=
  (putBinValue start stop).map u16le

/-- Embedding of `overflowing_put_cigar_op_count`: when the CIGAR has at
most `0xFFFF` ops, yield its length as `n_cigar_op` and no placeholder;
otherwise yield `n_cigar_op = 2` together with the placeholder
`[SoftClip k, Skip m]`, where `k` is the sequence length and `m` the length
of the record's reference sequence from the header (its absence is an
error). -/
def overflowingPutCigarOpCount (header : List Nat) (r : RecordBuf) :
    Option (List Nat × Option (List CigarOp)) :=
  if r.cigar.length < 2 ^ 16 then some (u16le r.cigar.length, none)
  else
    match r.referenceSequenceId with
    | none => none
    | some id =>
        match header[id]? with
        | none => none
        | some m => some (u16le 2, some [⟨.SoftClip, r.sequence.length⟩, ⟨.Skip, m⟩])

/-- Modelled from the spec: `put_name` writes the name (or `*`) plus NUL. -/
def putNameBytes (name? : Option (List Nat)) : List Nat :=
  (match name? with | some n => n | none => [42]) ++ [0]

/-- Modelled from the spec: one CIGAR op on the wire, `(op_len << 4) | op_code`
as a little-endian `u32`. -/
def putCigarOps (ops : List CigarOp) : List Nat :=
  ops.flatMap fun op => u32le ((op.len <<< 4) ||| opCode op.kind)

/-- Modelled from the spec: the fixed 4-bit base alphabet
`= A C M G R S V T W Y H K D B N` (unknown bytes map to `N`). -/
def baseCode (b : Nat) : Nat :=
  if b = 61 then 0
  else if b = 65 then 1
  else if b = 67 then 2
  else if b = 77 then 3
  else if b = 71 then 4
  else if b = 82 then 5
  else if b = 83 then 6
  else if b = 86 then 7
  else if b = 84 then 8
  else if b = 87 then 9
  else if b = 89 then 10
  else if b = 72 then 11
  else if b = 75 then 12
  else if b = 68 then 13
  else if b = 66 then 14
  else 15

/-- Modelled from the spec: 4-bit packing of the sequence, high nibble
first. -/
def packSeq : List Nat → List Nat
  | [] => []
  | [b] => [baseCode b <<< 4]
  | b1 :: b2 :: rest => ((baseCode b1 <<< 4) ||| baseCode b2) :: packSeq rest

/-- Modelled from the spec: `put_sequence` writes nothing for an empty
sequence and otherwise requires the sequence length to match the CIGAR's
read length when the latter is non-zero. -/
def putSequence (readLength : Nat) (seq : List Nat) : Option (List Nat) :=
  if seq.isEmpty then some []
  else if readLength ≠ 0 ∧ seq.length ≠ readLength then none
  else some (packSeq seq)

/-- Modelled from the spec: `put_quality_scores` writes `0xFF` repeated for
the sequence length when the scores are missing, and otherwise requires one
byte per base. -/
def putQualityScores (baseCount : Nat) (quals : List Nat) : Option (List Nat) :=
  if quals.isEmpty then some (List.replicate baseCount 255)
  else if quals.length = baseCount then some quals else none

/-- Modelled from the spec: the byte of a `B`-array subtype. -/
def subTypeByte : SubType → Nat
  | .i8 => 99
  | .u8 => 67
  | .i16 => 115
  | .u16 => 83
  | .i32 => 105
  | .u32 => 73
  | .f32 => 102

/-- Modelled from the spec: the wire bytes of one array element. -/
def putElem (st : SubType) (x : Int) : List Nat :=
  match st with
  | .i8 | .u8 => [u8cast x]
  | .i16 | .u16 => u16le (u16cast x)
  | .i32 | .u32 | .f32 => u32le (u32cast x)

/-- Modelled from the spec: the wire bytes of one field value, type byte
included. -/
def putValue : Value → List Nat
  | .charV c => [65, c]
  | .int8 x => [99, u8cast x]
  | .uint8 x => [67, x % 2 ^ 8]
  | .int16 x => 115 :: u16le (u16cast x)
  | .uint16 x => 83 :: u16le x
  | .int32 x => 105 :: u32le (u32cast x)
  | .uint32 x => 73 :: u32le x
  | .float32 bits => 102 :: u32le bits
  | .stringV bs => 90 :: (bs ++ [0])
  | .hexV bs => 72 :: (bs ++ [0])
  | .arrayV st xs => 66 :: subTypeByte st :: (u32le xs.length ++ xs.flatMap (putElem st))

/-- Modelled from the spec: `put_data` writes each auxiliary field as
`[tag:2][type:1][value]`, in map order. -/
def putData (data : List (Tag × Value)) : List Nat :=
  data.flatMap fun f => f.1.1 :: f.1.2 :: putValue f.2

/-- Modelled from the spec: `data::field::put_cigar`, the auxiliary field
`CG:B,I:<ops>` holding the real CIGAR with the same `(len << 4) | op`
encoding. -/
def putCGField (ops : List CigarOp) : List Nat :=
  [67, 71, 66, 73] ++ u32le ops.length ++ putCigarOps ops

/-- Embedding of `encode`: resolve and validate ids and lengths, then emit
the §4.2 layout `ref_id, pos, l_read_name, mapq, bin, n_cigar_op, flag,
l_seq, next_ref_id, next_pos, tlen, read_name, cigar, seq, qual, data`,
appending the `CG` field after the data exactly when the placeholder CIGAR
is in use. -/
def encode (header : List Nat) (r : RecordBuf) : Option (List Nat) :=
  (putReferenceSequenceId header r.referenceSequenceId).bind fun refIdB =>
  (putPosition r.alignmentStart).bind fun posB =>
  (putLReadName r.name).bind fun lNameB =>
  (putBinBytes r.alignmentStart (alignmentEnd r)).bind fun binB =>
  (overflowingPutCigarOpCount header r).bind fun cigarInfo =>
  (if r.sequence.length < 2 ^ 32 then some r.sequence.length else none).bind fun lSeq =>
  (putReferenceSequenceId header r.mateReferenceSequenceId).bind fun nextRefIdB =>
  (putPosition r.mateAlignmentStart).bind fun nextPosB =>
  (putSequence (cigarReadLength r.cigar) r.sequence).bind fun seqB =>
  (putQualityScores r.sequence.length r.qualityScores).bind fun qualB =>
  some (refIdB ++ posB ++ lNameB ++ putMappingQuality r.mappingQuality ++ binB ++
    cigarInfo.1 ++ u16le r.flags ++ u32le lSeq ++ nextRefIdB ++ nextPosB ++
    i32le r.templateLength ++ putNameBytes r.name ++
    (match cigarInfo.2 with
      | some ops => putCigarOps ops
      | none => putCigarOps r.cigar) ++
    seqB ++ qualB ++ putData r.data ++
    (match cigarInfo.2 with
      | some _ => putCGField r.cigar
      | none => []))

/-- The claim's description of the encoder output: the same §4.2 pipeline
with the `n_cigar_op` value, the inline CIGAR, and the optional trailing
`CG` field supplied explicitly. -/
def encodeWith (header : List Nat) (r : RecordBuf) (nCigarOp : Nat) (inlineOps : List CigarOp)
    (cg : Option (List CigarOp)) : Option (List Nat) :=
  (putReferenceSequenceId header r.referenceSequenceId).bind fun refIdB =>
  (putPosition r.alignmentStart).bind fun posB =>
  (putLReadName r.name).bind fun lNameB =>
  (putBinBytes r.alignmentStart (alignmentEnd r)).bind fun binB =>
  (if r.sequence.length < 2 ^ 32 then some r.sequence.length else none).bind fun lSeq =>
  (putReferenceSequenceId header r.mateReferenceSequenceId).bind fun nextRefIdB =>
  (putPosition r.mateAlignmentStart).bind fun nextPosB =>
  (putSequence (cigarReadLength r.cigar) r.sequence).bind fun seqB =>
  (putQualityScores r.sequence.length r.qualityScores).bind fun qualB =>
  some (refIdB ++ posB ++ lNameB ++ putMappingQuality r.mappingQuality ++ binB ++
    u16le nCigarOp ++ u16le r.flags ++ u32le lSeq ++ nextRefIdB ++ nextPosB ++
    i32le r.templateLength ++ putNameBytes r.name ++ putCigarOps inlineOps ++
    seqB ++ qualB ++ putData r.data ++
    (match cg with
      | some ops => putCGField ops
      | none => []))

/-- The default (unmapped) record of the source's
`test_encode_with_default_fields`. -/
def defaultRecord : RecordBuf :=
  { name := none, flags := 4, referenceSequenceId := none, alignmentStart := none,
    mappingQuality := none, cigar := [], mateReferenceSequenceId := none,
    mateAlignmentStart := none, templateLength := 0, sequence := [], qualityScores := [],
    data := [] }

/-! ## Claim C4: chunk merging in the bin builder -/

lemma addChunk_chunks (b : Builder) (c : Chunk) :
    (b.addChunk c).chunks =
      match b.chunks.getLast? with
      | some lastChunk =>
          if c.start ≤ lastChunk.stop then b.chunks.dropLast ++ [⟨lastChunk.start, c.stop⟩]
          else b.chunks ++ [c]
      | none => b.chunks ++ [c] := by
  unfold Builder.addChunk
  by_cases h : c.start < b.loffset <;>
    cases hgl : b.chunks.getLast? <;>
      simp [h, hgl] <;> split <;> rfl

/-- Counterexample to C4 as stated: with last chunk `(5, 13)`, adding the
chunk `(6, 10)` replaces the last chunk by `(5, 10)`, not by
`(5, max 13 10) = (5, 13)` as the claim's `max(last.end, c.end)` demands. -/
theorem addChunk_no_max_counterexample :
    (Builder.addChunk ⟨0, vpMax, [⟨5, 13⟩]⟩ ⟨6, 10⟩).chunks = [⟨5, 10⟩] ∧
      (Builder.addChunk ⟨0, vpMax, [⟨5, 13⟩]⟩ ⟨6, 10⟩).chunks ≠ [⟨5, Nat.max 13 10⟩] := by
  constructor <;> decide

/-- Claim C4 (amended): for a builder with a non-empty chunk list whose last
chunk is `last`, `add_chunk c` replaces the last chunk by one spanning from
`last.start` to `c.stop` (not to `max last.stop c.stop`) when
`c.start ≤ last.stop`, and appends `c` unchanged when `last.stop < c.start`. -/
theorem addChunk_merge_rule (b : Builder) (c lastChunk : Chunk)
    (h : b.chunks.getLast? = some lastChunk) :
    (c.start ≤ lastChunk.stop →
        (b.addChunk c).chunks = b.chunks.dropLast ++ [⟨lastChunk.start, c.stop⟩]) ∧
      (lastChunk.stop < c.start → (b.addChunk c).chunks = b.chunks ++ [c]) := by
  rw [addChunk_chunks, h] at *
  constructor
  · intro hle
    simp [hle]
  · intro hlt
    simp [Nat.not_le_of_lt hlt, hlt]

/-- Witness for `addChunk_merge_rule` at a concrete builder state. -/
theorem addChunk_merge_rule_witness :
    (Builder.mk 0 vpMax [⟨5, 13⟩]).chunks.getLast? = some ⟨5, 13⟩ ∧
      ((8 ≤ 13 →
          (Builder.addChunk ⟨0, vpMax, [⟨5, 13⟩]⟩ ⟨8, 21⟩).chunks =
            [Chunk.mk 5 13].dropLast ++ [⟨5, 21⟩]) ∧
        (13 < 8 → (Builder.addChunk ⟨0, vpMax, [⟨5, 13⟩]⟩ ⟨8, 21⟩).chunks =
            [Chunk.mk 5 13] ++ [⟨8, 21⟩])) :=
  ⟨by decide, addChunk_merge_rule ⟨0, vpMax, [⟨5, 13⟩]⟩ ⟨8, 21⟩ ⟨5, 13⟩ (by decide)⟩

/-! ## Claim C8: loffset of a bin builder -/

lemma addChunk_loffset (b : Builder) (c : Chunk) :
    (b.addChunk c).loffset = Nat.min b.loffset c.start := by
  unfold Builder.addChunk
  rcases Nat.lt_or_ge c.start b.loffset with h | h
  · simp only [h, if_true]
    have : Nat.min b.loffset c.start = c.start := Nat.min_eq_right (Nat.le_of_lt h)
    cases hl : (b.chunks.getLast?) <;> simp [hl, this] <;> split <;> rfl
  · simp only [Nat.not_lt_of_ge h, if_false]
    have : Nat.min b.loffset c.start = b.loffset := Nat.min_eq_left h
    cases hl : (b.chunks.getLast?) <;> simp [hl, this] <;> split <;> rfl

lemma foldl_addChunk_loffset (cs : List Chunk) (b : Builder) :
    (cs.foldl Builder.addChunk b).loffset = (cs.map Chunk.start).foldl Nat.min b.loffset := by
  induction cs generalizing b with
  | nil => rfl
  | cons c cs ih => simp [List.foldl_cons, ih, addChunk_loffset]

/-- Counterexample to C8 as stated: adding `(10, 20)` then `(5, 7)` to the
default builder merges the chunks into the single contained chunk
`(10, 7)`, whose minimum start is `10`, while the built bin's `loffset` is
`5`; so the built `Bin`'s loffset is not the minimum start over contained
chunks. -/
theorem builder_loffset_counterexample :
    ((Builder.default.addChunk ⟨10, 20⟩).addChunk ⟨5, 7⟩).build.chunks = [⟨10, 7⟩] ∧
      ((Builder.default.addChunk ⟨10, 20⟩).addChunk ⟨5, 7⟩).build.loffset = 5 ∧
      ((Builder.default.addChunk ⟨10, 20⟩).addChunk ⟨5, 7⟩).build.loffset ≠
        (List.map Chunk.start
            ((Builder.default.addChunk ⟨10, 20⟩).addChunk ⟨5, 7⟩).build.chunks).foldl
          Nat.min vpMax := by
  refine ⟨by decide, by decide, by decide⟩

/-- Claim C8 (amended): for every builder reachable from the default state by
a sequence of `add_chunk` calls, the builder's `loffset` is the minimum of
the sentinel `VirtualPosition::MAX` and the starts of all chunks ever added
(for a non-empty sequence of `u64` starts this is exactly the minimum added
start), and the built `Bin` carries that same `loffset`; it is not in
general the minimum start over the *contained* (merged) chunks. -/
theorem builder_loffset_min_added (cs : List Chunk) :
    (cs.foldl Builder.addChunk Builder.default).loffset =
        (cs.map Chunk.start).foldl Nat.min vpMax ∧
      (cs.foldl Builder.addChunk Builder.default).build.loffset =
        (cs.foldl Builder.addChunk Builder.default).loffset := by
  exact ⟨foldl_addChunk_loffset cs Builder.default, rfl⟩

/-! ## Claim C7: linear-index update -/

lemma updateWindows_getElem? (n : Nat) : ∀ (ix : List Nat) (i c j : Nat),
    (updateWindows ix i n c)[j]? =
      (ix[j]?).map (fun v => if i ≤ j ∧ j < i + n ∧ v = 0 then c else v) := by
  induction n with
  | zero =>
      intro ix i c j
      simp only [updateWindows]
      cases h : ix[j]? with
      | none => simp
      | some v =>
          have hcond : ¬(i ≤ j ∧ j < i ∧ v = 0) := by omega
          simp [hcond]
  | succ n ih =>
      intro ix i c j
      simp only [updateWindows]
      rw [ih]
      by_cases hj : j = i
      · subst hj
        by_cases h0 : ix[j]? = some 0
        · have hlen : j < ix.length := by
            by_contra hh
            rw [List.getElem?_eq_none (by omega)] at h0
            exact Option.noConfusion h0
          simp [h0, List.getElem?_set_self hlen]
        · simp only [h0, if_false]
          cases h : ix[j]? with
          | none => simp [h]
          | some v =>
              have hv : v ≠ 0 := fun hv => h0 (hv ▸ h)
              simp [h, hv]
      · have hix : (if ix[i]? = some 0 then ix.set i c else ix)[j]? = ix[j]? := by
          split
          · exact List.getElem?_set_ne (fun hh => hj hh.symm)
          · rfl
        rw [hix]
        cases h : ix[j]? with
        | none => rfl
        | some v =>
            have hiff : (i + 1 ≤ j ∧ j < i + 1 + n ∧ v = 0) ↔ (i ≤ j ∧ j < i + (n + 1) ∧ v = 0) := by
              constructor <;> rintro ⟨ha, hb, hc⟩ <;> exact ⟨by omega, by omega, hc⟩
            simp only [Option.map_some', hiff]

lemma updateWindows_length (n : Nat) : ∀ (ix : List Nat) (i c : Nat),
    (updateWindows ix i n c).length = ix.length := by
  induction n with
  | zero => intro ix i c; rfl
  | succ n ih =>
      intro ix i c
      simp only [updateWindows]
      rw [ih]
      split <;> simp

/-- Claim C7: `LinearIndex::update` grows the index with default entries to
length `(end - 1) >> 14 + 1` when shorter, and each window in
`[(start-1)>>14 .. (end-1)>>14]` is set to `chunk.start` exactly when it
currently holds the default virtual position (`0`) and is left unchanged
otherwise; in particular inserting `(start 1, end 16384, chunk (5, 13))`
into the empty index gives `[5]`, and then inserting
`(start 16385, end 16385, chunk (21, 34))` gives `[5, 21]`. -/
theorem linearIndexUpdate_spec :
    (∀ (ix : List Nat) (start stop : Nat) (c : Chunk),
        (linearIndexUpdate ix start stop c).length =
            Nat.max ix.length ((stop - 1) / windowSize + 1) ∧
          ∀ j : Nat,
            (linearIndexUpdate ix start stop c)[j]? =
              ((ix ++ List.replicate ((stop - 1) / windowSize + 1 - ix.length) 0)[j]?).map
                (fun v =>
                  if (start - 1) / windowSize ≤ j ∧ j ≤ (stop - 1) / windowSize ∧ v = 0 then
                    c.start
                  else v)) ∧
      linearIndexUpdate [] 1 16384 ⟨5, 13⟩ = [5] ∧
      linearIndexUpdate [5] 16385 16385 ⟨21, 34⟩ = [5, 21] := by
  refine ⟨?_, by decide, by decide⟩
  intro ix start stop c
  unfold linearIndexUpdate
  set so := (start - 1) / windowSize with hso
  set eo := (stop - 1) / windowSize with heo
  have hgrow :
      (if ix.length ≤ eo then ix ++ List.replicate (eo + 1 - ix.length) 0 else ix) =
        ix ++ List.replicate (eo + 1 - ix.length) 0 := by
    split
    · rfl
    · have : eo + 1 - ix.length = 0 := by omega
      simp [this]
  rw [hgrow]
  constructor
  · rw [updateWindows_length]
    simp only [List.length_append, List.length_replicate]
    show _ = max ix.length (eo + 1)
    rw [Nat.max_def]
    split <;> omega
  · intro j
    rw [updateWindows_getElem?]
    cases h : (ix ++ List.replicate (eo + 1 - ix.length) 0)[j]? with
    | none => rfl
    | some v =>
        have hiff : (so ≤ j ∧ j < so + (eo + 1 - so) ∧ v = 0) ↔ (so ≤ j ∧ j ≤ eo ∧ v = 0) := by
          constructor <;> rintro ⟨ha, hb, hc⟩ <;> exact ⟨ha, by omega, hc⟩
        simp only [Option.map_some', hiff]

/-! ## Claim C1: the emitted bin field -/

/-- Claim C1: for 1-based positions, `region_to_bin` computes exactly the
6-level binning formula on the 0-based pair, failing precisely when the
result does not fit in 16 bits; `put_bin` emits that value when both
positions are present and the constant 4680 otherwise; and the two
documented test vectors hold: `reg2bin(8, 13) = 4681` and
`reg2bin(63245986, 63245986) = 8541`. -/
theorem put_bin_spec :
    (∀ start stop : Nat,
        regionToBin (start + 1) (stop + 1) =
          if binFormula start stop < 2 ^ 16 then some (binFormula start stop) else none) ∧
      (∀ start stop : Nat, putBinValue (some start) (some stop) = regionToBin start stop) ∧
      (∀ stop, putBinValue none stop = some 4680) ∧
      (∀ start, putBinValue start none = some 4680) ∧
      regionToBin 8 13 = some 4681 ∧
      regionToBin 63245986 63245986 = some 8541 := by
  refine ⟨?_, fun start stop => rfl, fun stop => rfl, fun start => by cases start <;> rfl,
    by decide, by decide⟩
  intro start stop
  have hform :
      binFormula start stop =
        if start >>> 14 = stop >>> 14 then ((1 <<< 15) - 1) / 7 + (start >>> 14)
        else if start >>> 17 = stop >>> 17 then ((1 <<< 12) - 1) / 7 + (start >>> 17)
        else if start >>> 20 = stop >>> 20 then ((1 <<< 9) - 1) / 7 + (start >>> 20)
        else if start >>> 23 = stop >>> 23 then ((1 <<< 6) - 1) / 7 + (start >>> 23)
        else if start >>> 26 = stop >>> 26 then ((1 <<< 3) - 1) / 7 + (start >>> 26)
        else 0 := by
    show binFormulaLevels [0, 1, 2, 3, 4] start stop = _
    norm_num [binFormulaLevels]
  rw [regionToBin, hform]
  simp only [Nat.add_sub_cancel]

/-! ## Claim C3: the trailing Match op of resolve_features -/

/-- Claim C3: after the feature loop finishes with 1-based cursor `i`,
`resolve_features` appends exactly one final `M` op of length
`read_len - i + 1` (not `read_len - i`) when `i < read_len`, and appends
nothing when `i ≥ read_len`; the source's own test vectors are reproduced,
including `resolve_features([], 4) = [M4]` and
`resolve_features([SoftClip(1, "AT")], 4) = [S2, M2]`. -/
theorem resolve_features_trailing_match :
    (∀ (features : List Feature) (readLen i : Int) (ops : List CigarOp),
        resolveFeaturesGo features 1 [] = (ops, i) →
          (i < readLen →
              resolveFeatures features readLen = ops ++ [⟨.Match, u32cast (readLen - i + 1)⟩]) ∧
            (readLen ≤ i → resolveFeatures features readLen = ops)) ∧
      resolveFeatures [] 4 = [⟨.Match, 4⟩] ∧
      resolveFeatures [.softClip 1 [65, 84]] 4 = [⟨.SoftClip, 2⟩, ⟨.Match, 2⟩] ∧
      resolveFeatures [.softClip 4 [71]] 4 = [⟨.Match, 3⟩, ⟨.SoftClip, 1⟩] ∧
      resolveFeatures [.substitution 2 0] 4 = [⟨.Match, 1⟩, ⟨.Match, 1⟩, ⟨.Match, 2⟩] := by
  refine ⟨?_, by decide, by decide, by decide, by decide⟩
  intro features readLen i ops h
  unfold resolveFeatures
  rw [h]
  dsimp only
  constructor
  · intro hlt
    rw [if_pos hlt]
  · intro hge
    rw [if_neg (by omega)]

/-- Witness for `resolve_features_trailing_match` at the source's soft-clip
test vector. -/
theorem resolve_features_trailing_match_witness :
    resolveFeaturesGo [Feature.softClip 1 [65, 84]] 1 [] = ([⟨.SoftClip, 2⟩], 3) ∧
      (((3 : Int) < 4 →
          resolveFeatures [Feature.softClip 1 [65, 84]] 4 =
            [⟨.SoftClip, 2⟩] ++ [⟨.Match, u32cast (4 - 3 + 1)⟩]) ∧
        ((4 : Int) ≤ 3 → resolveFeatures [Feature.softClip 1 [65, 84]] 4 = [⟨.SoftClip, 2⟩])) :=
  ⟨by decide,
    resolve_features_trailing_match.1 [Feature.softClip 1 [65, 84]] 4 3 [⟨.SoftClip, 2⟩]
      (by decide)⟩

/-! ## Claim C9: resolve_bases with an empty feature list -/

lemma copyRefRange_spec (refSeq : List Nat) (n : Nat) :
    ∀ (buf : List Nat) (refPos readPos : Nat),
      refPos + n ≤ refSeq.length → readPos + n ≤ buf.length →
      ∃ out, copyRefRange refSeq n buf refPos readPos = some (out, refPos + n, readPos + n) ∧
        out.length = buf.length ∧
        ∀ j, out[j]? =
          if readPos ≤ j ∧ j < readPos + n then refSeq[refPos + (j - readPos)]? else buf[j]? := by
  induction n with
  | zero =>
      intro buf refPos readPos _ _
      refine ⟨buf, rfl, rfl, fun j => ?_⟩
      rw [if_neg (by omega)]
  | succ n ih =>
      intro buf refPos readPos h1 h2
      have hr : refPos < refSeq.length := by omega
      have hb : readPos < buf.length := by omega
      obtain ⟨out, hout, hlen, hpt⟩ :=
        ih (buf.set readPos refSeq[refPos]) (refPos + 1) (readPos + 1)
          (by omega) (by rw [List.length_set]; omega)
      have e1 : refPos + (n + 1) = refPos + 1 + n := by omega
      have e2 : readPos + (n + 1) = readPos + 1 + n := by omega
      rw [e1, e2]
      refine ⟨out, ?_, ?_, ?_⟩
      · show (refSeq[refPos]?.bind fun b => (setAt buf readPos b).bind fun buf =>
            copyRefRange refSeq n buf (refPos + 1) (readPos + 1)) = _
        rw [List.getElem?_eq_getElem hr]
        simp only [setAt, if_pos hb, Option.some_bind]
        exact hout
      · rw [hlen, List.length_set]
      · intro j
        rw [hpt j]
        by_cases hj : j = readPos
        · subst hj
          rw [if_neg (by omega), if_pos (by omega)]
          rw [List.getElem?_set_self hb, Nat.sub_self, Nat.add_zero,
            List.getElem?_eq_getElem hr]
        · by_cases hin : readPos + 1 ≤ j ∧ j < readPos + 1 + n
          · rw [if_pos hin, if_pos (by omega)]
            congr 1
            omega
          · rw [if_neg hin, if_neg (by omega), List.getElem?_set_ne (fun hh => hj hh.symm)]

/-- Claim C9: with an empty feature list, an in-range 1-based
`alignment_start`, and a reference holding at least
`alignment_start - 1 + read_len` bases, `resolve_bases` returns exactly the
`read_len` reference bases starting at 0-based offset
`alignment_start - 1`, verbatim. -/
theorem resolve_bases_empty_features (refSeq : List Nat) (subMat : Base → Nat → Base)
    (alignmentStart : Int) (readLen : Nat)
    (h1 : 1 ≤ alignmentStart) (h2 : alignmentStart ≤ 2 ^ 31)
    (h3 : (alignmentStart - 1).toNat + readLen ≤ refSeq.length) :
    resolveBases refSeq subMat [] alignmentStart readLen =
      some ((refSeq.drop (alignmentStart - 1).toNat).take readLen) := by
  have hcast : usizeCast (alignmentStart - 1) = (alignmentStart - 1).toNat := by
    unfold usizeCast
    rw [Int.emod_eq_of_lt (by omega) (by omega)]
  unfold resolveBases
  simp only [List.foldlM_nil, hcast]
  obtain ⟨out, hout, hlen, hpt⟩ :=
    copyRefRange_spec refSeq (List.replicate readLen 45).length (List.replicate readLen 45)
      (alignmentStart - 1).toNat 0
      (by rw [List.length_replicate]; omega) (by omega)
  show ((copyRefRange refSeq ((List.replicate readLen 45).length - 0)
      (List.replicate readLen 45) (alignmentStart - 1).toNat 0).bind fun r => some r.1) = _
  rw [Nat.sub_zero, hout, Option.some_bind]
  congr 1
  apply List.ext_getElem?
  intro j
  rw [hpt j]
  simp only [List.length_replicate] at *
  by_cases hj : j < readLen
  · rw [if_pos (by omega), List.getElem?_take_of_lt hj, List.getElem?_drop, Nat.sub_zero]
  · rw [if_neg (by omega), List.getElem?_eq_none (by rw [List.length_replicate]; omega),
      List.getElem?_eq_none]
    rw [List.length_take]
    omega

/-- Witness for `resolve_bases_empty_features` on the reference `ACGT` with
`alignment_start = 2` and `read_len = 2`. -/
theorem resolve_bases_empty_features_witness :
    (1 : Int) ≤ 2 ∧ (2 : Int) ≤ 2 ^ 31 ∧ ((2 : Int) - 1).toNat + 2 ≤ 4 ∧
      resolveBases [65, 67, 71, 84] (fun _ _ => Base.baseN) [] 2 2 =
        some ((List.drop ((2 : Int) - 1).toNat [65, 67, 71, 84]).take 2) :=
  ⟨by decide, by decide, by decide,
    resolve_bases_empty_features [65, 67, 71, 84] (fun _ _ => Base.baseN) 2 2
      (by decide) (by decide) (by decide)⟩

/-! ## Claim C5: ReferenceSkip and Padding in resolve_bases -/

/-- Claim C5 fails on the code: a `ReferenceSkip` or `Padding` feature falls
into the `_ => todo!(..)` arm of `resolve_bases`, which panics (modelled as
`None`) instead of advancing the reference cursor (respectively doing
nothing) and returning normally; here evaluated on the reference `ACGT`
with in-bounds cursors. -/
theorem resolve_bases_reference_skip_todo :
    resolveBases [65, 67, 71, 84] (fun _ _ => Base.baseN) [.referenceSkip 1 1] 1 4 = none ∧
      resolveBases [65, 67, 71, 84] (fun _ _ => Base.baseN) [.padding 1 1] 1 4 = none := by
  constructor <;> rfl

/-! ## Claims C6 and C10: duplicate-tag handling in get_data -/

lemma getDataGo_ok (fuel : Nat) :
    ∀ (src : List Nat) (acc fs : List (Tag × Value)),
      decodeFieldsGo fuel src = some fs →
      (∀ tg ∈ fs.map Prod.fst, tg ∉ acc.map Prod.fst) →
      (fs.map Prod.fst).Nodup →
      getDataGo fuel src acc = (acc ++ fs, none) := by
  induction fuel with
  | zero =>
      intro src acc fs hdec _ _
      cases src with
      | nil =>
          simp only [decodeFieldsGo] at hdec
          cases hdec
          simp [getDataGo]
      | cons b src => exact absurd hdec (by simp [decodeFieldsGo])
  | succ fuel ih =>
      intro src acc fs hdec hdisj hnd
      cases src with
      | nil =>
          simp only [decodeFieldsGo] at hdec
          cases hdec
          simp [getDataGo]
      | cons b src =>
          simp only [decodeFieldsGo] at hdec
          cases hf : getField (b :: src) with
          | none => rw [hf] at hdec; cases hdec
          | some fr =>
              obtain ⟨⟨t, v⟩, rest⟩ := fr
              rw [hf] at hdec
              simp only [Option.map_eq_some'] at hdec
              obtain ⟨fs', hdec', rfl⟩ := hdec
              have ht : t ∉ acc.map Prod.fst := hdisj t (by simp)
              have hfind : acc.find? (fun p => decide (p.1 = t)) = none := by
                rw [List.find?_eq_none]
                intro p hp
                simp only [decide_eq_true_eq]
                intro hpt
                exact ht (hpt ▸ List.mem_map_of_mem Prod.fst hp)
              simp only [getDataGo, hf, dataInsert, hfind]
              rw [ih rest (acc ++ [(t, v)]) fs' hdec' ?_ ?_]
              · simp
              · intro tg htg
                simp only [List.map_append, List.mem_append, List.map_cons, List.mem_singleton,
                  List.map_nil]
                rintro (hin | hin)
                · exact hdisj tg (by simp [htg]) hin
                · simp only [List.map_cons, List.nodup_cons] at hnd
                  exact hnd.1 (hin ▸ htg)
              · simp only [List.map_cons, List.nodup_cons] at hnd
                exact hnd.2

lemma getDataGo_dup (fuel : Nat) :
    ∀ (src : List Nat) (acc : List (Tag × Value)) (t : Tag),
      (acc.map Prod.fst).Nodup →
      (getDataGo fuel src acc).2 = some (DecodeErr.duplicateTag t) →
      ∃ fs s v rest,
        consumeFields src fs = some s ∧
        getField s = some ((t, v), rest) ∧
        (getDataGo fuel src acc).1 = acc ++ fs ∧
        ((acc ++ fs).map Prod.fst).Nodup ∧
        t ∈ (acc ++ fs).map Prod.fst := by
  induction fuel with
  | zero =>
      intro src acc t _ herr
      cases src with
      | nil => exact absurd herr (by simp [getDataGo])
      | cons b src => exact absurd herr (by simp [getDataGo])
  | succ fuel ih =>
      intro src acc t hnd herr
      cases src with
      | nil => exact absurd herr (by simp [getDataGo])
      | cons b src =>
          cases hf : getField (b :: src) with
          | none => rw [getDataGo, hf] at herr ⊢; cases herr
          | some fr =>
              obtain ⟨⟨t1, v1⟩, rest⟩ := fr
              rw [getDataGo, hf] at herr ⊢
              cases hfind : acc.find? (fun p => decide (p.1 = t1)) with
              | some p =>
                  simp only [dataInsert, hfind] at herr ⊢
                  have hpt : p.1 = t1 := by
                    have := List.find?_some hfind
                    simpa using this
                  have hpm : p ∈ acc := List.mem_of_find?_eq_some hfind
                  have ht : t = t1 := by
                    cases herr
                    exact hpt.symm ▸ rfl
                  refine ⟨[], b :: src, v1, rest, rfl, ?_, by simp, by simpa using hnd, ?_⟩
                  · rw [hf, ht]
                  · subst ht
                    rw [← hpt]
                    simpa using List.mem_map_of_mem Prod.fst hpm
              | none =>
                  simp only [dataInsert, hfind] at herr ⊢
                  have ht1 : t1 ∉ acc.map Prod.fst := by
                    intro hin
                    obtain ⟨p, hp, hpt⟩ := List.mem_map.mp hin
                    have : acc.find? (fun p => decide (p.1 = t1)) ≠ none := by
                      intro hh
                      rw [List.find?_eq_none] at hh
                      exact hh p hp (by simp [hpt])
                    exact this hfind
                  have hnd' : ((acc ++ [(t1, v1)]).map Prod.fst).Nodup := by
                    simp only [List.map_append, List.map_cons, List.map_nil]
                    simp [List.nodup_append, hnd, ht1]
                  obtain ⟨fs', s, v, rest', hcons, hgf, hfst, hnd'', hmem⟩ :=
                    ih rest (acc ++ [(t1, v1)]) t hnd' herr
                  refine ⟨(t1, v1) :: fs', s, v, rest', ?_, hgf, ?_, ?_, ?_⟩
                  · simp only [consumeFields, hf, if_pos rfl]
                    exact hcons
                  · rw [hfst, List.append_assoc]
                    rfl
                  · rw [List.append_assoc] at hnd''
                    exact hnd''
                  · rw [List.append_assoc] at hmem
                    exact hmem

lemma getDataGo_firstDup (fuel : Nat) :
    ∀ (src : List Nat) (acc : List (Tag × Value)) (fs : List (Tag × Value)) (t : Tag),
      decodeFieldsGo fuel src = some fs →
      firstDupTag (acc.map Prod.fst) (fs.map Prod.fst) = some t →
      (getDataGo fuel src acc).2 = some (DecodeErr.duplicateTag t) := by
  induction fuel with
  | zero =>
      intro src acc fs t hdec hdup
      cases src with
      | nil =>
          simp only [decodeFieldsGo] at hdec
          cases hdec
          exact absurd hdup (by simp [firstDupTag])
      | cons b src => exact absurd hdec (by simp [decodeFieldsGo])
  | succ fuel ih =>
      intro src acc fs t hdec hdup
      cases src with
      | nil =>
          simp only [decodeFieldsGo] at hdec
          cases hdec
          exact absurd hdup (by simp [firstDupTag])
      | cons b src =>
          simp only [decodeFieldsGo] at hdec
          cases hf : getField (b :: src) with
          | none => rw [hf] at hdec; cases hdec
          | some fr =>
              obtain ⟨⟨t1, v1⟩, rest⟩ := fr
              rw [hf] at hdec
              simp only [Option.map_eq_some'] at hdec
              obtain ⟨fs', hdec', rfl⟩ := hdec
              simp only [List.map_cons, firstDupTag] at hdup
              rw [getDataGo, hf]
              by_cases hin : t1 ∈ acc.map Prod.fst
              · rw [if_pos hin] at hdup
                injection hdup with ht
                subst ht
                obtain ⟨p, hp, hpt⟩ := List.mem_map.mp hin
                have hne : acc.find? (fun p => decide (p.1 = t1)) ≠ none := by
                  intro hh
                  rw [List.find?_eq_none] at hh
                  exact hh p hp (by simp [hpt])
                cases hfind : acc.find? (fun p => decide (p.1 = t1)) with
                | none => exact absurd hfind hne
                | some q =>
                    have hqt : q.1 = t1 := by
                      have := List.find?_some hfind
                      simpa using this
                    simp [dataInsert, hfind, hqt]
              · rw [if_neg hin] at hdup
                have hfind : acc.find? (fun p => decide (p.1 = t1)) = none := by
                  rw [List.find?_eq_none]
                  intro p hp
                  simp only [decide_eq_true_eq]
                  intro hpt
                  exact hin (hpt ▸ List.mem_map_of_mem Prod.fst hp)
                simp only [dataInsert, hfind]
                refine ih rest (acc ++ [(t1, v1)]) fs' t hdec' ?_
                simpa using hdup

/-- Claim C6: decoding the 8-byte buffer `NHC\x01NHC\x01` fails with
`DuplicateTag("NH")`; in general, a buffer whose decoded fields repeat a
tag makes `get_data` fail with `DuplicateTag` carrying the first repeated
tag, and a buffer with pairwise-distinct tags that decodes without a field
error makes `get_data` return Ok. -/
theorem get_data_duplicate_tag :
    getData [78, 72, 67, 1, 78, 72, 67, 1] [] =
        ([((78, 72), Value.uint8 1)], some (DecodeErr.duplicateTag (78, 72))) ∧
      (∀ (src : List Nat) (d0 fs : List (Tag × Value)) (t : Tag),
          decodeFields src = some fs →
          firstDupTag [] (fs.map Prod.fst) = some t →
          (getData src d0).2 = some (DecodeErr.duplicateTag t)) ∧
      (∀ (src : List Nat) (d0 fs : List (Tag × Value)),
          decodeFields src = some fs → (fs.map Prod.fst).Nodup →
          (getData src d0).2 = none) := by
  refine ⟨by decide, ?_, ?_⟩
  · intro src d0 fs t hdec hdup
    exact getDataGo_firstDup src.length src [] fs t hdec hdup
  · intro src d0 fs hdec hnd
    show (getDataGo src.length src []).2 = none
    rw [getDataGo_ok src.length src [] fs hdec (by simp) hnd]

/-- Witness for `get_data_duplicate_tag` on the buffer `NHC\x01NHC\x01`. -/
theorem get_data_duplicate_tag_witness :
    decodeFields [78, 72, 67, 1, 78, 72, 67, 1] =
        some [((78, 72), Value.uint8 1), ((78, 72), Value.uint8 1)] ∧
      firstDupTag [] [(78, 72), (78, 72)] = some (78, 72) ∧
      (getData [78, 72, 67, 1, 78, 72, 67, 1] []).2 =
        some (DecodeErr.duplicateTag (78, 72)) :=
  ⟨by decide, by decide,
    get_data_duplicate_tag.2.1 [78, 72, 67, 1, 78, 72, 67, 1] []
      [((78, 72), Value.uint8 1), ((78, 72), Value.uint8 1)] (78, 72) (by decide) (by decide)⟩

/-- Claim C10: `get_data` discards the destination map's prior contents (the
result does not depend on them), and on a `DuplicateTag(t)` failure the
destination holds exactly the fields decoded before the error — with
pairwise-distinct tags, among them the first occurrence of `t` with its
original value — while the bytes from the second occurrence of `t` onward
are never decoded past that field. -/
theorem get_data_duplicate_partial_state (src : List Nat) (d0 d0' : List (Tag × Value)) :
    getData src d0 = getData src d0' ∧
      ∀ t : Tag, (getData src d0).2 = some (DecodeErr.duplicateTag t) →
        ∃ fs s v rest,
          consumeFields src fs = some s ∧
          getField s = some ((t, v), rest) ∧
          (getData src d0).1 = fs ∧
          (fs.map Prod.fst).Nodup ∧
          t ∈ fs.map Prod.fst := by
  refine ⟨rfl, ?_⟩
  intro t herr
  obtain ⟨fs, s, v, rest, hcons, hgf, hfst, hnd, hmem⟩ :=
    getDataGo_dup src.length src [] t (by simp) herr
  exact ⟨fs, s, v, rest, hcons, hgf, by simpa using hfst, by simpa using hnd,
    by simpa using hmem⟩

/-- Witness for `get_data_duplicate_partial_state` on `NHC\x01NHC\x02`,
whose two `NH` fields carry distinct values. -/
theorem get_data_duplicate_partial_state_witness :
    (getData [78, 72, 67, 1, 78, 72, 67, 2] []).2 =
        some (DecodeErr.duplicateTag (78, 72)) ∧
      ∃ fs s v rest,
        consumeFields [78, 72, 67, 1, 78, 72, 67, 2] fs = some s ∧
        getField s = some (((78, 72), v), rest) ∧
        (getData [78, 72, 67, 1, 78, 72, 67, 2] []).1 = fs ∧
        (fs.map Prod.fst).Nodup ∧
        (78, 72) ∈ fs.map Prod.fst :=
  ⟨by decide,
    (get_data_duplicate_partial_state [78, 72, 67, 1, 78, 72, 67, 2] [] [((0, 0), Value.uint8 7)]).2
      (78, 72) (by decide)⟩

/-! ## Claim C2: the oversized-CIGAR escape -/

lemma bind_const_none {α β : Type} (x : Option α) :
    (x.bind fun _ => (none : Option β)) = none := by
  cases x <;> rfl

/-- Claim C2: when the CIGAR has more than `0xFFFF` ops, `encode` emits
`n_cigar_op = 2` with the inline placeholder `[SoftClip k, Skip m]` — `k`
the sequence length, `m` the record's reference length from the header
(whose absence is an error) — and appends the real CIGAR after the other
auxiliary fields as a `CG:B,I` field with the same `(len << 4) | op`
encoding; with at most `0xFFFF` ops the inline CIGAR is the record's CIGAR
and no `CG` field is appended. -/
theorem encode_cigar_op_count_escape (header : List Nat) (r : RecordBuf) :
    (2 ^ 16 ≤ r.cigar.length →
        encode header r =
          match r.referenceSequenceId.bind fun id => header[id]? with
          | none => none
          | some m =>
              encodeWith header r 2 [⟨.SoftClip, r.sequence.length⟩, ⟨.Skip, m⟩]
                (some r.cigar)) ∧
      (r.cigar.length < 2 ^ 16 →
        encode header r = encodeWith header r r.cigar.length r.cigar none) := by
  constructor
  · intro h
    have hov : overflowingPutCigarOpCount header r =
        match r.referenceSequenceId.bind fun id => header[id]? with
        | none => none
        | some m => some (u16le 2, some [⟨.SoftClip, r.sequence.length⟩, ⟨.Skip, m⟩]) := by
      unfold overflowingPutCigarOpCount
      rw [if_neg (by omega)]
      cases hrid : r.referenceSequenceId with
      | none => rfl
      | some id => rw [Option.some_bind]
    unfold encode encodeWith
    simp only [hov]
    cases hm : (r.referenceSequenceId.bind fun id => header[id]?) with
    | none => simp only [Option.none_bind, bind_const_none]
    | some m => simp only [Option.some_bind]
  · intro h
    have hov : overflowingPutCigarOpCount header r = some (u16le r.cigar.length, none) := by
      unfold overflowingPutCigarOpCount
      rw [if_pos h]
    unfold encode encodeWith
    simp only [hov, Option.some_bind]

/-- Witness for `encode_cigar_op_count_escape` at the default record. -/
theorem encode_cigar_op_count_escape_witness :
    defaultRecord.cigar.length < 2 ^ 16 ∧
      encode [] defaultRecord =
        encodeWith [] defaultRecord defaultRecord.cigar.length defaultRecord.cigar none :=
  ⟨by decide, (encode_cigar_op_count_escape [] defaultRecord).2 (by decide)⟩

/-- Sanity check: the embedded encoder reproduces the source's 34-byte
`test_encode_with_default_fields` vector. -/
theorem encode_default_record_bytes :
    encode [] defaultRecord =
      some [0xff, 0xff, 0xff, 0xff, 0xff, 0xff, 0xff, 0xff, 0x02, 0xff, 0x48, 0x12,
        0x00, 0x00, 0x04, 0x00, 0x00, 0x00, 0x00, 0x00, 0xff, 0xff, 0xff, 0xff,
        0xff, 0xff, 0xff, 0xff, 0x00, 0x00, 0x00, 0x00, 0x2a, 0x00] := by
  decide

/-- Sanity check: the embedded encoder reproduces the source's
`test_encode_with_all_fields` vector (header `sq0(8), sq1(13)`; record
`r0`, flags `0x41`, ref 1, start 9, mapq 13, cigar `3M1S`, mate ref 1,
mate start 22, tlen 144, seq `ACGT`, quals `[45,35,43,50]`, `NH:C:1`). -/
theorem encode_all_fields_bytes :
    encode [8, 13]
        { name := some [114, 48], flags := 0x41, referenceSequenceId := some 1,
          alignmentStart := some 9, mappingQuality := some 13,
          cigar := [⟨.Match, 3⟩, ⟨.SoftClip, 1⟩], mateReferenceSequenceId := some 1,
          mateAlignmentStart := some 22, templateLength := 144,
          sequence := [65, 67, 71, 84], qualityScores := [45, 35, 43, 50],
          data := [((78, 72), Value.uint8 1)] } =
      some [0x01, 0x00, 0x00, 0x00, 0x08, 0x00, 0x00, 0x00, 0x03, 0x0d, 0x49, 0x12,
        0x02, 0x00, 0x41, 0x00, 0x04, 0x00, 0x00, 0x00, 0x01, 0x00, 0x00, 0x00,
        0x15, 0x00, 0x00, 0x00, 0x90, 0x00, 0x00, 0x00, 0x72, 0x30, 0x00,
        0x30, 0x00, 0x00, 0x00, 0x14, 0x00, 0x00, 0x00, 0x12, 0x48,
        0x2d, 0x23, 0x2b, 0x32, 0x4e, 0x48, 0x43, 0x01] := by
  decide

end Noodles
